import Mathlib

/-!
Shallow embedding of the workload-balancing core of the task-management
application: the capacity evaluator (lib/team-utils.ts) and the bulk
rebalancing sweep (app/api/tasks/reassign/route.ts), together with the
auto-assignment branch of the task-creation route (app/api/tasks/route.ts).

Databases are modelled as in-memory snapshots: a list of team members, each
carrying the tasks assigned to it.  Prisma count/filter queries on non-DONE
tasks become list filters.  JavaScript `Array.prototype.sort` is stable
(ES2019), so comparator sorts are modelled with the stable
`List.insertionSort`.  Activity-log writes are not modelled; no claim
concerns their content.  Task updates (`prisma.task.update` setting
`assignedToId`) are modelled as an explicit list of
(taskId, newAssigneeId) pairs emitted by the sweep.
-/

namespace TaskMgmt

/-- Task priority enumeration (prisma enum TaskPriority). -/
inductive Priority where
  | LOW
  | MEDIUM
  | HIGH
deriving DecidableEq, Repr

/-- Task status enumeration (prisma enum TaskStatus). -/
inductive Status where
  | PENDING
  | IN_PROGRESS
  | DONE
deriving DecidableEq, Repr

/-- A task row, restricted to the fields the core reads. -/
structure Task where
  id : String
  title : String
  priority : Priority
  status : Status
deriving DecidableEq, Repr

/-- A team-member row together with the tasks currently assigned to it
(the prisma include shape consumed by the core). -/
structure Member where
  id : String
  teamId : String
  name : String
  capacity : Nat
  tasks : List Task
deriving DecidableEq, Repr

/-- A team row with its members (the shape fetched by the sweep). -/
structure Team where
  id : String
  name : String
  members : List Member
deriving DecidableEq, Repr

/-- The member's current load: count of its tasks whose status is not DONE.
This is the `_count` of the filtered prisma include used throughout
lib/team-utils.ts. -/
def Member.currentLoad (m : Member) : Nat :=
  (m.tasks.filter (fun t => decide (t.status ≠ Status.DONE))).length

/-- prisma.teamMember.findUnique on a member id over the member table. -/
def findUniqueMember (db : List Member) (memberId : String) : Option Member :=
  db.find? (fun m => decide (m.id = memberId))

/-- Result record of isMemberOverCapacity (lib/team-utils.ts).  The source
returns a plain object; the absent `member` field of the not-found branch is
an Option. -/
structure CapacityCheck where
  overCapacity : Bool
  currentLoad : Nat
  capacity : Nat
  member : Option Member
deriving DecidableEq, Repr

/-- isMemberOverCapacity (lib/team-utils.ts lines 82-107): look the member up,
compute its non-DONE load, and compare `currentLoad >= capacity`. -/
def isMemberOverCapacity (db : List Member) (memberId : String) : CapacityCheck :=
  match findUniqueMember db memberId with
  | none => { overCapacity := false, currentLoad := 0, capacity := 0, member := none }
  | some member =>
      { overCapacity := decide (member.capacity ≤ member.currentLoad)
        currentLoad := member.currentLoad
        capacity := member.capacity
        member := some member }

/-- Ordering of members by current (non-DONE) load, the comparator
`(a, b) => a._count.tasks - b._count.tasks` of getMembersWithCapacity. -/
def loadLE (a b : Member) : Prop := a.currentLoad ≤ b.currentLoad

instance : DecidableRel loadLE :=
  fun a b => inferInstanceAs (Decidable (a.currentLoad ≤ b.currentLoad))

instance : IsTotal Member loadLE := ⟨fun a b => Nat.le_total a.currentLoad b.currentLoad⟩

instance : IsTrans Member loadLE := ⟨fun _ _ _ => Nat.le_trans⟩

/-- getMembersWithCapacity (lib/team-utils.ts lines 112-131): members of the
team, filtered to `_count.tasks < capacity`, sorted least-loaded first. -/
def getMembersWithCapacity (db : List Member) (teamId : String) : List Member :=
  List.insertionSort loadLE
    ((db.filter (fun m => decide (m.teamId = teamId))).filter
      (fun m => decide (m.currentLoad < m.capacity)))

/-- findBestMemberForTask (lib/team-utils.ts lines 136-145): null when the
list is empty, otherwise its first element. -/
def findBestMemberForTask (db : List Member) (teamId : String) : Option Member :=
  (getMembersWithCapacity db teamId).head?

/-- The three return shapes of validateTaskAssignment, modelled as a tagged
union: `rejected` is the `{valid:false, error}` object, `warned` the
`{valid:false, warning:true, message, currentLoad, capacity}` object, and
`allowed` the `{valid:true, member, currentLoad, capacity}` object. -/
inductive AssignmentValidation where
  | rejected (error : String)
  | warned (message : String) (currentLoad : Nat) (capacity : Nat)
  | allowed (member : Member) (currentLoad : Nat) (capacity : Nat)
deriving DecidableEq, Repr

/-- The `valid` field of the object returned by validateTaskAssignment. -/
def AssignmentValidation.valid : AssignmentValidation → Bool
  | .allowed _ _ _ => true
  | _ => false

/-- The `warning` field of the object returned by validateTaskAssignment
(absent, hence false, on the rejected and allowed shapes). -/
def AssignmentValidation.warningFlag : AssignmentValidation → Bool
  | .warned _ _ _ => true
  | _ => false

/-- The template-literal warning message of validateTaskAssignment. -/
def warnMessage (name : String) (currentLoad capacity : Nat) : String :=
  name ++ (" has " ++ (toString currentLoad ++
    (" tasks but capacity is " ++ (toString capacity ++ ". Assign anyway?"))))

/-- validateTaskAssignment (lib/team-utils.ts lines 150-180). -/
def validateTaskAssignment (db : List Member) (memberId : String) (force : Bool) :
    AssignmentValidation :=
  let c := isMemberOverCapacity db memberId
  match c.member with
  | none => .rejected "Member not found"
  | some member =>
      if c.overCapacity && !force then
        .warned (warnMessage member.name c.currentLoad c.capacity) c.currentLoad c.capacity
      else
        .allowed member c.currentLoad c.capacity

/-- The auto-assignment branch of POST /api/tasks (app/api/tasks/route.ts
lines 141-149): when autoAssign is requested and no assignee was given, use
findBestMemberForTask; when it returns null the task keeps its (absent)
assignee. -/
def autoAssignTarget (db : List Member) (teamId : String)
    (assignedToId : Option String) (autoAssign : Bool) : Option String :=
  if autoAssign && assignedToId.isNone then
    match findBestMemberForTask db teamId with
    | some bestMember => some bestMember.id
    | none => assignedToId
  else
    assignedToId

/-! ### The rebalancing sweep (app/api/tasks/reassign/route.ts)

The route fetches all teams with, for every member, the tasks whose status is
not DONE; it then mutates the in-memory member objects (pushing each moved
task onto its target's task list) while iterating.  The mutation is modelled
by threading the team's member list as explicit state and addressing members
by id.  Ids are unique in the database (primary keys); theorems that need
uniqueness carry an explicit Nodup hypothesis. -/

/-- The record pushed onto the `reassignments` response array. -/
structure Reassignment where
  taskId : String
  taskTitle : String
  fromMember : String
  toMember : String
  teamName : String
deriving DecidableEq, Repr

/-- The `priorityOrder` ranking of the sort comparator in the sweep. -/
def priorityOrder : Priority → Nat
  | .LOW => 0
  | .MEDIUM => 1
  | .HIGH => 2

/-- Ordering of tasks by priority rank, the comparator
`(a, b) => priorityOrder[a.priority] - priorityOrder[b.priority]`. -/
def taskLE (a b : Task) : Prop := priorityOrder a.priority ≤ priorityOrder b.priority

instance : DecidableRel taskLE :=
  fun a b => inferInstanceAs (Decidable (priorityOrder a.priority ≤ priorityOrder b.priority))

instance : IsTotal Task taskLE :=
  ⟨fun a b => Nat.le_total (priorityOrder a.priority) (priorityOrder b.priority)⟩

instance : IsTrans Task taskLE := ⟨fun _ _ _ => Nat.le_trans⟩

/-- Ordering of members by in-memory open-task count, the comparator
`(a, b) => a.tasks.length - b.tasks.length` of the sweep. -/
def openLE (a b : Member) : Prop := a.tasks.length ≤ b.tasks.length

instance : DecidableRel openLE :=
  fun a b => inferInstanceAs (Decidable (a.tasks.length ≤ b.tasks.length))

instance : IsTotal Member openLE := ⟨fun a b => Nat.le_total a.tasks.length b.tasks.length⟩

instance : IsTrans Member openLE := ⟨fun _ _ _ => Nat.le_trans⟩

/-- The sweep's prisma query keeps, per member, only the tasks whose status
is not DONE. -/
def fetchMember (m : Member) : Member :=
  { m with tasks := m.tasks.filter (fun t => decide (t.status ≠ Status.DONE)) }

/-- Apply the fetch filter to a whole team. -/
def fetchTeam (t : Team) : Team :=
  { t with members := t.members.map fetchMember }

/-- Apply the fetch filter to the full team list (prisma.team.findMany). -/
def fetchTeams (ts : List Team) : List Team := ts.map fetchTeam

/-- Dereference a member object by id in the current in-memory state. -/
def lookupMember (st : List Member) (i : String) : Option Member :=
  st.find? (fun m => decide (m.id = i))

/-- The in-memory mutation `targetMember.tasks.push(task)`. -/
def pushTask (st : List Member) (i : String) (task : Task) : List Member :=
  st.map (fun m => if m.id = i then { m with tasks := m.tasks ++ [task] } else m)

/-- `availableMembers.find(member => member.tasks.length < member.capacity)`:
first member, in availableMembers order, whose current open-task count is
still under capacity.  The none-branch of the lookup is unreachable (every id
in the list names a member of the state). -/
def findTarget (st : List Member) : List String → Option Member
  | [] => none
  | i :: rest =>
      match lookupMember st i with
      | some m => if m.tasks.length < m.capacity then some m else findTarget st rest
      | none => findTarget st rest

/-- tasksToReassign of one overloaded member (route lines 49-63): its open
tasks with priority not HIGH, stably sorted LOW before MEDIUM, truncated to
`excess = tasks.length - capacity` elements.  (At every call site the member
is strictly over capacity, so the natural subtraction is never truncated.) -/
def tasksToReassignOf (om : Member) : List Task :=
  (List.insertionSort taskLE
    (om.tasks.filter (fun t => decide (t.priority ≠ Priority.HIGH)))).take
    (om.tasks.length - om.capacity)

/-- availableMembers of the route (lines 66-74), computed from the current
in-memory state at the start of processing one overloaded member: every
other member still strictly under capacity, least loaded first, addressed by
id. -/
def availableIdsOf (st : List Member) (omId : String) : List String :=
  (List.insertionSort openLE
    (st.filter (fun m => decide (m.id ≠ omId) && decide (m.tasks.length < m.capacity)))).map
    Member.id

/-- The inner `for (const task of tasksToReassign)` loop (route lines 77-111):
pick a target, record the update and the reassignment, push the task onto the
target's in-memory list, continue; break when no target remains.  Returns the
final state, the reassignment records, and the task-update writes. -/
def reassignLoop (teamName fromName : String) (availIds : List String) :
    List Task → List Member → List Member × List Reassignment × List (String × String)
  | [], st => (st, [], [])
  | task :: rest, st =>
      match findTarget st availIds with
      | none => (st, [], [])
      | some target =>
          let p := reassignLoop teamName fromName availIds rest (pushTask st target.id task)
          (p.1,
           { taskId := task.id, taskTitle := task.title, fromMember := fromName,
             toMember := target.name, teamName := teamName } :: p.2.1,
           (task.id, target.id) :: p.2.2)

/-- The body of the `for (const overloadedMember of overloadedMembers)` loop,
reading the member's current data from the threaded state.  The none-branch
is unreachable: an overloaded member stays in the state (updates only append
to task lists). -/
def processOverloaded (teamName : String) (st : List Member) (omId : String) :
    List Member × List Reassignment × List (String × String) :=
  match lookupMember st omId with
  | none => (st, [], [])
  | some om =>
      reassignLoop teamName om.name (availableIdsOf st omId) (tasksToReassignOf om) st

/-- overloadedMembers of one team (route lines 41-43): members whose fetched
open-task count strictly exceeds their capacity. -/
def overloadedOf (t : Team) : List Member :=
  t.members.filter (fun m => decide (m.capacity < m.tasks.length))

/-- Process one team (route lines 39-113): iterate over the overloaded
members identified on the team snapshot, threading the in-memory member
state. -/
def processTeam (t : Team) : List Member × List Reassignment × List (String × String) :=
  ((overloadedOf t).map Member.id).foldl
    (fun acc omId =>
      let q := processOverloaded t.name acc.1 omId
      (q.1, acc.2.1 ++ q.2.1, acc.2.2 ++ q.2.2))
    (t.members, [], [])

/-- The whole sweep: fetch every team (tasks filtered to non-DONE), process
the teams independently, and concatenate the reassignment records and the
task-update writes in order. -/
def runRebalancingSweep (teams : List Team) : List Reassignment × List (String × String) :=
  (fetchTeams teams).foldl
    (fun acc t =>
      let q := processTeam t
      (acc.1 ++ q.2.1, acc.2 ++ q.2.2))
    ([], [])

/-! ### Trace instrumentation

A second copy of the sweep recursion that records, for every completed move,
the in-memory state at the moment the move was chosen, the moved task and
the target member object as read from that state.  Theorems relate the sweep
outputs to projections of this trace. -/

/-- One completed move of the sweep, with the state it was chosen in. -/
structure MoveEvent where
  stBefore : List Member
  teamName : String
  fromName : String
  task : Task
  target : Member
deriving DecidableEq, Repr

/-- The reassignment record a move produces. -/
def eventToRecord (e : MoveEvent) : Reassignment :=
  { taskId := e.task.id, taskTitle := e.task.title, fromMember := e.fromName,
    toMember := e.target.name, teamName := e.teamName }

/-- The task-update write a move produces. -/
def eventToUpdate (e : MoveEvent) : String × String := (e.task.id, e.target.id)

/-- Trace-collecting version of reassignLoop. -/
def reassignLoopT (teamName fromName : String) (availIds : List String) :
    List Task → List Member → List Member × List MoveEvent
  | [], st => (st, [])
  | task :: rest, st =>
      match findTarget st availIds with
      | none => (st, [])
      | some target =>
          let p := reassignLoopT teamName fromName availIds rest (pushTask st target.id task)
          (p.1,
           { stBefore := st, teamName := teamName, fromName := fromName,
             task := task, target := target } :: p.2)

/-- Trace-collecting version of processOverloaded. -/
def processOverloadedT (teamName : String) (st : List Member) (omId : String) :
    List Member × List MoveEvent :=
  match lookupMember st omId with
  | none => (st, [])
  | some om =>
      reassignLoopT teamName om.name (availableIdsOf st omId) (tasksToReassignOf om) st

/-- Trace-collecting version of processTeam. -/
def processTeamT (t : Team) : List Member × List MoveEvent :=
  ((overloadedOf t).map Member.id).foldl
    (fun acc omId =>
      let q := processOverloadedT t.name acc.1 omId
      (q.1, acc.2 ++ q.2))
    (t.members, [])

/-- The trace of the whole sweep, in move order. -/
def sweepTrace (teams : List Team) : List MoveEvent :=
  (fetchTeams teams).foldl (fun acc t => acc ++ (processTeamT t).2) []

/-- A move list is chained from a state when every move was chosen in the
state produced by the moves before it (the in-memory push of each completed
move is visible to all later moves), ending in the given final state. -/
def ChainedFrom : List Member → List MoveEvent → List Member → Prop
  | st, [], stF => stF = st
  | st, e :: es, stF => e.stBefore = st ∧ ChainedFrom (pushTask st e.target.id e.task) es stF

/-- The selection facts of one completed move: the stored target is what the
running state held under its id at the moment of choice, and it was strictly
under capacity then. -/
def MoveEvent.Guard (e : MoveEvent) : Prop :=
  lookupMember e.stBefore e.target.id = some e.target
  ∧ e.target.tasks.length < e.target.capacity

/-! ### The specified algorithm, for the refinement claim

Two renderings of the spec text for the available-member list.  The first
follows the spec sentence literally: the list is computed once, at the start
of processing the team, and is not recomputed per overloaded member.  The
second is the amended algorithm: the list is recomputed, from the current
in-memory state, at the start of processing each overloaded member; it is
written with a different loop structure than the code embedding (explicit
recursion instead of foldl, filter-then-head instead of find, a single
conjunctive filter predicate) so that the equality theorem genuinely crosses
two formulations. -/

/-- Spec step 5 target pick: first member of the availables, in order, whose
running count is still under capacity. -/
def specPickTarget (st : List Member) (availIds : List String) : Option Member :=
  (availIds.filterMap (fun i =>
    match lookupMember st i with
    | some m => if m.tasks.length < m.capacity then some m else none
    | none => none)).head?

/-- Spec step 4 availables, evaluated in a given state: every other member of
the team with open-task count strictly under capacity, least loaded first. -/
def specAvailable (st : List Member) (omId : String) : List Member :=
  List.insertionSort openLE
    (st.filter (fun m => decide (m.id ≠ omId ∧ m.tasks.length < m.capacity)))

/-- Spec step 5 loop over the chosen tasks of one overloaded member. -/
def specMoveTasks (teamName fromName : String) (availIds : List String) :
    List Task → List Member → List Member × List Reassignment × List (String × String)
  | [], st => (st, [], [])
  | task :: rest, st =>
      match specPickTarget st availIds with
      | none => (st, [], [])
      | some target =>
          let p := specMoveTasks teamName fromName availIds rest (pushTask st target.id task)
          (p.1,
           { taskId := task.id, taskTitle := task.title, fromMember := fromName,
             toMember := target.name, teamName := teamName } :: p.2.1,
           (task.id, target.id) :: p.2.2)

/-- Amended spec algorithm, steps 2-6 over one team's overloaded members:
the available list is recomputed from the current state for each overloaded
member. -/
def specProcessMembers (teamName : String) :
    List String → List Member → List Member × List Reassignment × List (String × String)
  | [], st => (st, [], [])
  | omId :: rest, st =>
      match lookupMember st omId with
      | none => specProcessMembers teamName rest st
      | some om =>
          let q := specMoveTasks teamName om.name ((specAvailable st omId).map Member.id)
            (tasksToReassignOf om) st
          let r := specProcessMembers teamName rest q.1
          (r.1, q.2.1 ++ r.2.1, q.2.2 ++ r.2.2)

/-- Amended spec algorithm for one team. -/
def specProcessTeam (t : Team) : List Member × List Reassignment × List (String × String) :=
  specProcessMembers t.name ((overloadedOf t).map Member.id) t.members

/-- Amended spec algorithm for the whole sweep. -/
def specSweep (teams : List Team) : List Reassignment × List (String × String) :=
  ((fetchTeams teams).map specProcessTeam).foldr
    (fun q acc => (q.2.1 ++ acc.1, q.2.2 ++ acc.2)) ([], [])

/-- The spec sentence taken literally: the available-member list (members of
the team strictly under capacity, least loaded first — an overloaded member
can never qualify, so no exclusion is needed) is computed once at the start
of processing the team and reused, unrefreshed, for every overloaded member;
only the under-capacity recheck of step 5 sees the running counts. -/
def specOnceProcessTeam (t : Team) :
    List Member × List Reassignment × List (String × String) :=
  let availIds :=
    (List.insertionSort openLE
      (t.members.filter (fun m => decide (m.tasks.length < m.capacity)))).map Member.id
  ((overloadedOf t).map Member.id).foldl
    (fun acc omId =>
      match lookupMember acc.1 omId with
      | none => acc
      | some om =>
          let q := reassignLoop t.name om.name availIds (tasksToReassignOf om) acc.1
          (q.1, acc.2.1 ++ q.2.1, acc.2.2 ++ q.2.2))
    (t.members, [], [])

/-- Whole-sweep version of the literal once-per-team reading. -/
def specOnceSweep (teams : List Team) : List Reassignment × List (String × String) :=
  (fetchTeams teams).foldl
    (fun acc t =>
      let q := specOnceProcessTeam t
      (acc.1 ++ q.2.1, acc.2 ++ q.2.2))
    ([], [])

/-! ### Concrete scenario data used by witnesses and the counterexample -/

/-- Scenario A low-priority open task. -/
def exTaskLow : Task := { id := "t1", title := "Low task", priority := .LOW, status := .PENDING }

/-- Scenario A medium-priority open task. -/
def exTaskMed : Task :=
  { id := "t2", title := "Medium task", priority := .MEDIUM, status := .PENDING }

/-- Scenario A high-priority open task. -/
def exTaskHigh : Task :=
  { id := "t3", title := "High task", priority := .HIGH, status := .PENDING }

/-- Scenario A overloaded member: capacity 2, three open tasks. -/
def exM1 : Member :=
  { id := "m1", teamId := "team1", name := "M1", capacity := 2,
    tasks := [exTaskLow, exTaskMed, exTaskHigh] }

/-- Scenario A teammate: capacity 2, no open tasks. -/
def exM2 : Member := { id := "m2", teamId := "team1", name := "M2", capacity := 2, tasks := [] }

/-- Scenario A team. -/
def exTeamA : Team := { id := "team1", name := "Alpha", members := [exM1, exM2] }

/-- The single move Scenario A must produce, as an event. -/
def exEventA : MoveEvent :=
  { stBefore := [exM1, exM2], teamName := "Alpha", fromName := "M1",
    task := exTaskLow, target := exM2 }

/-- An open task for Scenario B. -/
def exOpen (n : String) : Task :=
  { id := n, title := "Task " ++ n, priority := .MEDIUM, status := .PENDING }

/-- Scenario B member: capacity 3 with exactly 3 open tasks. -/
def exAlice : Member :=
  { id := "ma", teamId := "teamB", name := "Alice", capacity := 3,
    tasks := [exOpen "b1", exOpen "b2", exOpen "b3"] }

/-- Scenario B team. -/
def exTeamB : Team := { id := "teamB", name := "Beta", members := [exAlice] }

/-- A low-priority open task for the recomputation counterexample. -/
def exC9Task (n : String) : Task :=
  { id := n, title := "Task " ++ n, priority := .LOW, status := .PENDING }

/-- Counterexample overloaded member 1: capacity 0, two open tasks. -/
def exO1 : Member :=
  { id := "o1", teamId := "teamC", name := "O1", capacity := 0,
    tasks := [exC9Task "c1", exC9Task "c2"] }

/-- Counterexample overloaded member 2: capacity 0, one open task. -/
def exO2 : Member :=
  { id := "o2", teamId := "teamC", name := "O2", capacity := 0, tasks := [exC9Task "c3"] }

/-- Counterexample target A: capacity 5, one open task. -/
def exA : Member :=
  { id := "a", teamId := "teamC", name := "A", capacity := 5, tasks := [exC9Task "c4"] }

/-- Counterexample target B: capacity 5, two open tasks. -/
def exB : Member :=
  { id := "b", teamId := "teamC", name := "B", capacity := 5,
    tasks := [exC9Task "c5", exC9Task "c6"] }

/-- Counterexample team: after O1 sheds two tasks onto A, the freshly
recomputed available list for O2 starts with B, while a once-per-team list
still starts with A. -/
def exTeamC : Team := { id := "teamC", name := "Gamma", members := [exO1, exO2, exA, exB] }

/-- The first move of the sweep on the counterexample team. -/
def exEventC : MoveEvent :=
  { stBefore := [exO1, exO2, exA, exB], teamName := "Gamma", fromName := "O1",
    task := exC9Task "c1", target := exA }

/-! ### Theorems -/

/-- C1: validateAssignment is Rejected exactly when the member id is unknown,
Warned (with a message carrying name, load and capacity) exactly when the
member exists, is over capacity and force is false, and Allowed exactly when
the member exists and is not over capacity or force is true; the valid and
warning fields follow the variant. -/
theorem validateTaskAssignment_cases (db : List Member) (memberId : String) (force : Bool) :
    (validateTaskAssignment db memberId force = .rejected "Member not found" ↔
      findUniqueMember db memberId = none)
    ∧ (∀ m, findUniqueMember db memberId = some m →
        (validateTaskAssignment db memberId force =
            .warned (warnMessage m.name m.currentLoad m.capacity) m.currentLoad m.capacity ↔
          m.capacity ≤ m.currentLoad ∧ force = false)
        ∧ (validateTaskAssignment db memberId force = .allowed m m.currentLoad m.capacity ↔
            m.currentLoad < m.capacity ∨ force = true))
    ∧ ((validateTaskAssignment db memberId force).valid = true ↔
        ∃ m, findUniqueMember db memberId = some m ∧
          (m.currentLoad < m.capacity ∨ force = true))
    ∧ ((validateTaskAssignment db memberId force).warningFlag = true ↔
        ∃ m, findUniqueMember db memberId = some m ∧
          m.capacity ≤ m.currentLoad ∧ force = false)
    ∧ (∀ name l c, warnMessage name l c =
        name ++ (" has " ++ (toString l ++
          (" tasks but capacity is " ++ (toString c ++ ". Assign anyway?"))))) := by
  cases h : findUniqueMember db memberId with
  | none =>
      have hv : validateTaskAssignment db memberId force = .rejected "Member not found" := by
        simp [validateTaskAssignment, isMemberOverCapacity, h]
      refine ⟨by simp [hv], ?_, ?_, ?_, fun name l c => rfl⟩
      · intro m hm
        cases hm
      · rw [hv]
        simp only [AssignmentValidation.valid]
        constructor
        · intro hx
          cases hx
        · rintro ⟨m, hm, -⟩
          cases hm
      · rw [hv]
        simp only [AssignmentValidation.warningFlag]
        constructor
        · intro hx
          cases hx
        · rintro ⟨m, hm, -⟩
          cases hm
  | some m =>
      have hinj : ∀ m', some m = some m' → m' = m :=
        fun m' hm' => (Option.some.inj hm').symm
      have hval : validateTaskAssignment db memberId force =
          if m.capacity ≤ m.currentLoad ∧ force = false then
            .warned (warnMessage m.name m.currentLoad m.capacity) m.currentLoad m.capacity
          else
            .allowed m m.currentLoad m.capacity := by
        simp only [validateTaskAssignment, isMemberOverCapacity, h]
        by_cases hc : m.capacity ≤ m.currentLoad <;> cases force <;> simp [hc]
      by_cases hc : m.capacity ≤ m.currentLoad ∧ force = false
      · rw [hval, if_pos hc]
        refine ⟨?_, ?_, ?_, ?_, fun name l c => rfl⟩
        · constructor
          · intro hx
            cases hx
          · intro hn
            cases hn
        · intro m' hm'
          rcases hinj m' hm' with rfl
          refine ⟨⟨fun _ => ⟨hc.1, hc.2⟩, fun _ => rfl⟩, ?_, ?_⟩
          · intro hx
            cases hx
          · intro hor
            exfalso
            rcases hor with hlt | ht
            · exact absurd hc.1 (Nat.not_le.mpr hlt)
            · rw [hc.2] at ht
              cases ht
        · simp only [AssignmentValidation.valid]
          constructor
          · intro hx
            cases hx
          · rintro ⟨m', hm', hor⟩
            rcases hinj m' hm' with rfl
            exfalso
            rcases hor with hlt | ht
            · exact absurd hc.1 (Nat.not_le.mpr hlt)
            · rw [hc.2] at ht
              cases ht
        · simp only [AssignmentValidation.warningFlag]
          exact ⟨fun _ => ⟨m, rfl, hc.1, hc.2⟩, fun _ => trivial⟩
      · have hor : m.currentLoad < m.capacity ∨ force = true := by
          by_cases hcl : m.capacity ≤ m.currentLoad
          · cases force with
            | false => exact absurd ⟨hcl, rfl⟩ hc
            | true => exact Or.inr rfl
          · exact Or.inl (Nat.lt_of_not_le hcl)
        rw [hval, if_neg hc]
        refine ⟨?_, ?_, ?_, ?_, fun name l c => rfl⟩
        · constructor
          · intro hx
            cases hx
          · intro hn
            cases hn
        · intro m' hm'
          rcases hinj m' hm' with rfl
          refine ⟨⟨?_, fun hcc => absurd hcc hc⟩, fun _ => hor, fun _ => rfl⟩
          intro hx
          cases hx
        · simp only [AssignmentValidation.valid]
          exact ⟨fun _ => ⟨m, rfl, hor⟩, fun _ => trivial⟩
        · simp only [AssignmentValidation.warningFlag]
          constructor
          · intro hx
            cases hx
          · rintro ⟨m', hm', hcc⟩
            rcases hinj m' hm' with rfl
            exact absurd hcc hc

/-- C1 witness: the characterization applied to a concrete database holding
one member at capacity. -/
theorem validateTaskAssignment_cases_witness :
    validateTaskAssignment [exAlice] "ma" false =
        .warned (warnMessage exAlice.name exAlice.currentLoad exAlice.capacity)
          exAlice.currentLoad exAlice.capacity ↔
      exAlice.capacity ≤ exAlice.currentLoad ∧ false = false :=
  ((validateTaskAssignment_cases [exAlice] "ma" false).2.1 exAlice (by decide)).1

/-- C2: for an existing member, isMemberOverCapacity reports over capacity
exactly when the non-DONE task count is at least the capacity; the boundary
(load equal to capacity) counts as over capacity. -/
theorem isMemberOverCapacity_correct (db : List Member) (memberId : String) (m : Member)
    (h : (isMemberOverCapacity db memberId).member = some m) :
    ((isMemberOverCapacity db memberId).overCapacity = true ↔ m.capacity ≤ m.currentLoad)
    ∧ (isMemberOverCapacity db memberId).currentLoad = m.currentLoad
    ∧ (isMemberOverCapacity db memberId).capacity = m.capacity
    ∧ m.currentLoad = (m.tasks.filter (fun t => decide (t.status ≠ Status.DONE))).length
    ∧ (m.currentLoad = m.capacity → (isMemberOverCapacity db memberId).overCapacity = true) := by
  cases hf : findUniqueMember db memberId with
  | none => simp [isMemberOverCapacity, hf] at h
  | some m' =>
      simp only [isMemberOverCapacity, hf, Option.some.injEq] at h
      cases h
      refine ⟨by simp [isMemberOverCapacity, hf], by simp [isMemberOverCapacity, hf],
        by simp [isMemberOverCapacity, hf], rfl, ?_⟩
      intro heq
      simp [isMemberOverCapacity, hf, heq]

/-- C2 witness: a member with load exactly equal to capacity is reported over
capacity. -/
theorem isMemberOverCapacity_correct_witness :
    ((isMemberOverCapacity [exAlice] "ma").overCapacity = true ↔
      exAlice.capacity ≤ exAlice.currentLoad)
    ∧ (isMemberOverCapacity [exAlice] "ma").currentLoad = exAlice.currentLoad
    ∧ (isMemberOverCapacity [exAlice] "ma").capacity = exAlice.capacity
    ∧ exAlice.currentLoad =
        (exAlice.tasks.filter (fun t => decide (t.status ≠ Status.DONE))).length
    ∧ (exAlice.currentLoad = exAlice.capacity →
        (isMemberOverCapacity [exAlice] "ma").overCapacity = true) :=
  isMemberOverCapacity_correct [exAlice] "ma" exAlice (by decide)

/-- C8: membersWithSpareCapacity holds exactly the team's members strictly
under capacity, least loaded first; findBestMemberForTask is its head, none
when every member of the team is at or over capacity, in which case
auto-assignment leaves the task unassigned. -/
theorem getMembersWithCapacity_correct (db : List Member) (teamId : String) :
    (getMembersWithCapacity db teamId).Perm
        ((db.filter (fun m => decide (m.teamId = teamId))).filter
          (fun m => decide (m.currentLoad < m.capacity)))
    ∧ (∀ m ∈ getMembersWithCapacity db teamId,
        m ∈ db ∧ m.teamId = teamId ∧ m.currentLoad < m.capacity)
    ∧ List.Sorted loadLE (getMembersWithCapacity db teamId)
    ∧ findBestMemberForTask db teamId = (getMembersWithCapacity db teamId).head?
    ∧ ((∀ m ∈ db, m.teamId = teamId → m.capacity ≤ m.currentLoad) →
        findBestMemberForTask db teamId = none
        ∧ ∀ autoAssign, autoAssignTarget db teamId none autoAssign = none) := by
  refine ⟨List.perm_insertionSort loadLE _, ?_, List.sorted_insertionSort loadLE _, rfl, ?_⟩
  · intro m hm
    rw [getMembersWithCapacity, List.mem_insertionSort, List.mem_filter,
      List.mem_filter] at hm
    rcases hm with ⟨⟨hmem, hteam⟩, hload⟩
    rw [decide_eq_true_eq] at hteam hload
    exact ⟨hmem, hteam, hload⟩
  · intro hall
    have hnil : getMembersWithCapacity db teamId = [] := by
      rw [getMembersWithCapacity]
      have h2 : (db.filter (fun m => decide (m.teamId = teamId))).filter
          (fun m => decide (m.currentLoad < m.capacity)) = [] := by
        rw [List.filter_eq_nil_iff]
        intro m hm
        rw [List.mem_filter, decide_eq_true_eq] at hm
        rw [decide_eq_true_eq]
        have := hall m hm.1 hm.2
        omega
      rw [h2]
      rfl
    have hbest : findBestMemberForTask db teamId = none := by
      rw [findBestMemberForTask, hnil]
      rfl
    refine ⟨hbest, ?_⟩
    intro autoAssign
    rw [autoAssignTarget, hbest]
    cases autoAssign <;> simp

/-- C8 witness: a team whose only member is at capacity yields no best
member, and auto-assignment falls through to no assignee. -/
theorem getMembersWithCapacity_correct_witness :
    findBestMemberForTask [exAlice] "teamB" = none
    ∧ ∀ autoAssign, autoAssignTarget [exAlice] "teamB" none autoAssign = none :=
  (getMembersWithCapacity_correct [exAlice] "teamB").2.2.2.2 (by decide)

/-- Pushing a task onto a member changes no ids, so lookups commute with the
push, acquiring the pushed task exactly on the target id. -/
theorem pushTask_lookup (st : List Member) (i : String) (task : Task) (j : String) :
    lookupMember (pushTask st i task) j =
      (lookupMember st j).map
        (fun m => if m.id = i then { m with tasks := m.tasks ++ [task] } else m) := by
  unfold lookupMember pushTask
  rw [List.find?_map]
  have hp : ((fun m : Member => decide (m.id = j)) ∘
      (fun m : Member => if m.id = i then { m with tasks := m.tasks ++ [task] } else m)) =
      fun m : Member => decide (m.id = j) := by
    funext m
    by_cases hmi : m.id = i <;> simp [hmi]
  rw [hp]

/-- A found target was read from the running state under its own id and was
strictly under capacity there. -/
theorem findTarget_eq_some (st : List Member) :
    ∀ (ids : List String) (t : Member), findTarget st ids = some t →
      lookupMember st t.id = some t ∧ t.tasks.length < t.capacity := by
  intro ids
  induction ids with
  | nil => intro t h; cases h
  | cons i rest ih =>
      intro t h
      cases hl : lookupMember st i with
      | none =>
          simp only [findTarget, hl] at h
          exact ih t h
      | some m =>
          simp only [findTarget, hl] at h
          by_cases hcap : m.tasks.length < m.capacity
          · rw [if_pos hcap] at h
            cases h
            have hid : t.id = i := by
              have hs := List.find?_some hl
              simpa using hs
            rw [hid]
            exact ⟨hl, hcap⟩
          · rw [if_neg hcap] at h
            exact ih t h

/-- Chained move lists concatenate. -/
theorem chainedFrom_append {stM stF : List Member} {es₂ : List MoveEvent} :
    ∀ {es₁ : List MoveEvent} {st : List Member},
      ChainedFrom st es₁ stM → ChainedFrom stM es₂ stF →
      ChainedFrom st (es₁ ++ es₂) stF := by
  intro es₁
  induction es₁ with
  | nil =>
      intro st h1 h2
      have h1' : stM = st := h1
      rw [List.nil_append, ← h1']
      exact h2
  | cons e es ih =>
      intro st h1 h2
      obtain ⟨he, hrest⟩ := h1
      exact ⟨he, ih hrest h2⟩

/-- The inner task loop is chained from its starting state. -/
theorem reassignLoopT_chain (tn fn : String) (ids : List String) :
    ∀ (ts : List Task) (st : List Member),
      ChainedFrom st (reassignLoopT tn fn ids ts st).2 (reassignLoopT tn fn ids ts st).1 := by
  intro ts
  induction ts with
  | nil => intro st; exact rfl
  | cons task rest ih =>
      intro st
      cases hf : findTarget st ids with
      | none =>
          simp only [reassignLoopT, hf]
          exact rfl
      | some target =>
          simp only [reassignLoopT, hf]
          exact ⟨rfl, ih (pushTask st target.id task)⟩

/-- Every move of the inner task loop satisfies the selection guard and moves
a task of the given list. -/
theorem reassignLoopT_guard (tn fn : String) (ids : List String) :
    ∀ (ts : List Task) (st : List Member) (e : MoveEvent),
      e ∈ (reassignLoopT tn fn ids ts st).2 → e.Guard ∧ e.task ∈ ts := by
  intro ts
  induction ts with
  | nil =>
      intro st e he
      simp [reassignLoopT] at he
  | cons task rest ih =>
      intro st e he
      cases hf : findTarget st ids with
      | none =>
          simp only [reassignLoopT, hf] at he
          simp at he
      | some target =>
          simp only [reassignLoopT, hf] at he
          rcases List.mem_cons.mp he with rfl | hmem
          · obtain ⟨hl, hc⟩ := findTarget_eq_some st ids target hf
            exact ⟨⟨hl, hc⟩, List.mem_cons_self task rest⟩
          · obtain ⟨hg, ht⟩ := ih (pushTask st target.id task) e hmem
            exact ⟨hg, List.mem_cons_of_mem task ht⟩

/-- Every chosen task of an overloaded member avoids HIGH priority. -/
theorem tasksToReassignOf_nonHigh (om : Member) :
    ∀ task ∈ tasksToReassignOf om, task.priority ≠ Priority.HIGH := by
  intro task ht
  have h1 : task ∈ List.insertionSort taskLE
      (om.tasks.filter (fun t => decide (t.priority ≠ Priority.HIGH))) :=
    List.mem_of_mem_take ht
  rw [List.mem_insertionSort, List.mem_filter, decide_eq_true_eq] at h1
  exact h1.2

/-- Guard and non-HIGH priority for the moves of one overloaded member. -/
theorem processOverloadedT_guard (tn : String) (st : List Member) (omId : String) :
    ∀ e ∈ (processOverloadedT tn st omId).2,
      e.Guard ∧ e.task.priority ≠ Priority.HIGH := by
  intro e he
  cases hl : lookupMember st omId with
  | none => simp [processOverloadedT, hl] at he
  | some om =>
      simp only [processOverloadedT, hl] at he
      obtain ⟨hg, hts⟩ :=
        reassignLoopT_guard tn om.name (availableIdsOf st omId) (tasksToReassignOf om) st e he
      exact ⟨hg, tasksToReassignOf_nonHigh om e.task hts⟩

/-- The moves of one overloaded member are chained from the entry state. -/
theorem processOverloadedT_chain (tn : String) (st : List Member) (omId : String) :
    ChainedFrom st (processOverloadedT tn st omId).2 (processOverloadedT tn st omId).1 := by
  cases hl : lookupMember st omId with
  | none =>
      simp only [processOverloadedT, hl]
      exact rfl
  | some om =>
      simp only [processOverloadedT, hl]
      exact reassignLoopT_chain tn om.name (availableIdsOf st omId) (tasksToReassignOf om) st

/-- The per-team fold of the trace sweep preserves chaining. -/
theorem foldT_chain (tn : String) :
    ∀ (ids : List String) (st₀ st : List Member) (evs : List MoveEvent),
      ChainedFrom st₀ evs st →
      ChainedFrom st₀
        ((ids.foldl (fun acc omId =>
            ((processOverloadedT tn acc.1 omId).1,
             acc.2 ++ (processOverloadedT tn acc.1 omId).2)) (st, evs)).2)
        ((ids.foldl (fun acc omId =>
            ((processOverloadedT tn acc.1 omId).1,
             acc.2 ++ (processOverloadedT tn acc.1 omId).2)) (st, evs)).1) := by
  intro ids
  induction ids with
  | nil => intro st₀ st evs h; simpa using h
  | cons i rest ih =>
      intro st₀ st evs h
      simp only [List.foldl_cons]
      exact ih st₀ _ _ (chainedFrom_append h (processOverloadedT_chain tn st i))

/-- The moves of one team are chained from the team's fetched member list. -/
theorem processTeamT_chain (t : Team) :
    ChainedFrom t.members (processTeamT t).2 (processTeamT t).1 :=
  foldT_chain t.name ((overloadedOf t).map Member.id) t.members t.members [] rfl

/-- The per-team fold of the trace sweep preserves guard facts. -/
theorem foldT_guard (tn : String) :
    ∀ (ids : List String) (st : List Member) (evs : List MoveEvent),
      (∀ e ∈ evs, e.Guard ∧ e.task.priority ≠ Priority.HIGH) →
      ∀ e ∈ ((ids.foldl (fun acc omId =>
          ((processOverloadedT tn acc.1 omId).1,
           acc.2 ++ (processOverloadedT tn acc.1 omId).2)) (st, evs)).2),
        e.Guard ∧ e.task.priority ≠ Priority.HIGH := by
  intro ids
  induction ids with
  | nil => intro st evs h; simpa using h
  | cons i rest ih =>
      intro st evs h
      simp only [List.foldl_cons]
      refine ih _ _ ?_
      intro e he
      rcases List.mem_append.mp he with h1 | h2
      · exact h e h1
      · exact processOverloadedT_guard tn st i e h2

/-- Guard and non-HIGH priority for all moves of one team. -/
theorem processTeamT_guard (t : Team) :
    ∀ e ∈ (processTeamT t).2, e.Guard ∧ e.task.priority ≠ Priority.HIGH :=
  foldT_guard t.name ((overloadedOf t).map Member.id) t.members []
    (fun e he => absurd he (List.not_mem_nil e))

/-- The inner task loop of the sweep is the record/update projection of its
trace version. -/
theorem reassignLoop_eq_trace (tn fn : String) (ids : List String) :
    ∀ (ts : List Task) (st : List Member),
      reassignLoop tn fn ids ts st =
        ((reassignLoopT tn fn ids ts st).1,
         (reassignLoopT tn fn ids ts st).2.map eventToRecord,
         (reassignLoopT tn fn ids ts st).2.map eventToUpdate) := by
  intro ts
  induction ts with
  | nil => intro st; rfl
  | cons task rest ih =>
      intro st
      cases hf : findTarget st ids with
      | none => simp only [reassignLoop, reassignLoopT, hf, List.map_nil]
      | some target =>
          simp only [reassignLoop, reassignLoopT, hf, ih (pushTask st target.id task),
            List.map_cons, eventToRecord, eventToUpdate]

/-- One overloaded member's processing is the projection of its trace
version. -/
theorem processOverloaded_eq_trace (tn : String) (st : List Member) (omId : String) :
    processOverloaded tn st omId =
      ((processOverloadedT tn st omId).1,
       (processOverloadedT tn st omId).2.map eventToRecord,
       (processOverloadedT tn st omId).2.map eventToUpdate) := by
  cases hl : lookupMember st omId with
  | none => simp only [processOverloaded, processOverloadedT, hl, List.map_nil]
  | some om =>
      simp only [processOverloaded, processOverloadedT, hl]
      exact reassignLoop_eq_trace tn om.name (availableIdsOf st omId) (tasksToReassignOf om) st

/-- The per-team fold of the sweep is the projection of the trace fold. -/
theorem foldPT (tn : String) :
    ∀ (ids : List String) (st : List Member) (recs : List Reassignment)
      (upds : List (String × String)) (evs : List MoveEvent),
      recs = evs.map eventToRecord → upds = evs.map eventToUpdate →
      ids.foldl (fun acc omId =>
          ((processOverloaded tn acc.1 omId).1,
           acc.2.1 ++ (processOverloaded tn acc.1 omId).2.1,
           acc.2.2 ++ (processOverloaded tn acc.1 omId).2.2)) (st, recs, upds) =
        ((ids.foldl (fun acc omId =>
            ((processOverloadedT tn acc.1 omId).1,
             acc.2 ++ (processOverloadedT tn acc.1 omId).2)) (st, evs)).1,
         ((ids.foldl (fun acc omId =>
            ((processOverloadedT tn acc.1 omId).1,
             acc.2 ++ (processOverloadedT tn acc.1 omId).2)) (st, evs)).2).map eventToRecord,
         ((ids.foldl (fun acc omId =>
            ((processOverloadedT tn acc.1 omId).1,
             acc.2 ++ (processOverloadedT tn acc.1 omId).2)) (st, evs)).2).map eventToUpdate) := by
  intro ids
  induction ids with
  | nil =>
      intro st recs upds evs h1 h2
      simp only [List.foldl_nil]
      rw [h1, h2]
  | cons i rest ih =>
      intro st recs upds evs h1 h2
      simp only [List.foldl_cons, processOverloaded_eq_trace tn st i]
      exact ih _ _ _ (evs ++ (processOverloadedT tn st i).2)
        (by rw [h1, List.map_append]) (by rw [h2, List.map_append])

/-- One team's processing is the projection of its trace version. -/
theorem processTeam_eq_trace (t : Team) :
    processTeam t =
      ((processTeamT t).1,
       (processTeamT t).2.map eventToRecord,
       (processTeamT t).2.map eventToUpdate) :=
  foldPT t.name ((overloadedOf t).map Member.id) t.members [] [] [] rfl rfl

/-- The whole-sweep fold is the projection of the trace fold. -/
theorem foldSweep :
    ∀ (ts : List Team) (recs : List Reassignment) (upds : List (String × String))
      (evs : List MoveEvent),
      recs = evs.map eventToRecord → upds = evs.map eventToUpdate →
      ts.foldl (fun acc t =>
          (acc.1 ++ (processTeam t).2.1, acc.2 ++ (processTeam t).2.2)) (recs, upds) =
        ((ts.foldl (fun acc t => acc ++ (processTeamT t).2) evs).map eventToRecord,
         (ts.foldl (fun acc t => acc ++ (processTeamT t).2) evs).map eventToUpdate) := by
  intro ts
  induction ts with
  | nil =>
      intro recs upds evs h1 h2
      simp only [List.foldl_nil]
      rw [h1, h2]
  | cons t rest ih =>
      intro recs upds evs h1 h2
      simp only [List.foldl_cons, processTeam_eq_trace t]
      exact ih _ _ (evs ++ (processTeamT t).2)
        (by rw [h1, List.map_append]) (by rw [h2, List.map_append])

/-- The sweep's outputs are the projections of its trace. -/
theorem sweep_eq_trace (teams : List Team) :
    runRebalancingSweep teams =
      ((sweepTrace teams).map eventToRecord, (sweepTrace teams).map eventToUpdate) :=
  foldSweep (fetchTeams teams) [] [] [] rfl rfl

/-- Membership in an accumulating append fold. -/
theorem mem_foldl_append {α β : Type} (g : α → List β) :
    ∀ (l : List α) (acc : List β) (x : β),
      x ∈ l.foldl (fun a t => a ++ g t) acc ↔ x ∈ acc ∨ ∃ t ∈ l, x ∈ g t := by
  intro l
  induction l with
  | nil => intro acc x; simp
  | cons t rest ih =>
      intro acc x
      simp only [List.foldl_cons]
      rw [ih (acc ++ g t) x]
      simp only [List.mem_append, List.mem_cons]
      constructor
      · rintro ((hx | hx) | ⟨t', ht', hx⟩)
        · exact Or.inl hx
        · exact Or.inr ⟨t, Or.inl rfl, hx⟩
        · exact Or.inr ⟨t', Or.inr ht', hx⟩
      · rintro (hx | ⟨t', ht' | ht', hx⟩)
        · exact Or.inl (Or.inl hx)
        · cases ht'
          exact Or.inl (Or.inr hx)
        · exact Or.inr ⟨t', ht', hx⟩

/-- Guard and non-HIGH priority for every move of the whole sweep. -/
theorem sweepTrace_guard (teams : List Team) :
    ∀ e ∈ sweepTrace teams, e.Guard ∧ e.task.priority ≠ Priority.HIGH := by
  intro e he
  unfold sweepTrace at he
  rw [mem_foldl_append] at he
  rcases he with h0 | ⟨t, _, he⟩
  · simp at h0
  · exact processTeamT_guard t e he

/-- C3: the sweep never assigns a task to a member whose running open-task
count, at the moment that move is chosen within the sweep, is at or above
that member's capacity; the moves are chained, so each completed move's
in-memory push is visible to all later moves, and the sweep outputs are
exactly the projections of the chained move trace. -/
theorem sweep_targets_under_capacity (teams : List Team) :
    (runRebalancingSweep teams).1 = (sweepTrace teams).map eventToRecord
    ∧ (runRebalancingSweep teams).2 = (sweepTrace teams).map eventToUpdate
    ∧ (∀ e ∈ sweepTrace teams,
        ∃ m, lookupMember e.stBefore e.target.id = some m ∧ m.tasks.length < m.capacity)
    ∧ (∀ t ∈ fetchTeams teams,
        ChainedFrom t.members (processTeamT t).2 (processTeamT t).1) := by
  refine ⟨?_, ?_, ?_, ?_⟩
  · rw [sweep_eq_trace]
  · rw [sweep_eq_trace]
  · intro e he
    obtain ⟨⟨hl, hc⟩, -⟩ := sweepTrace_guard teams e he
    exact ⟨e.target, hl, hc⟩
  · intro t _
    exact processTeamT_chain t

/-- C3 witness: the single move of Scenario A, whose target was read from the
running state strictly under capacity. -/
theorem sweep_targets_under_capacity_witness :
    ∃ m, lookupMember exEventA.stBefore exEventA.target.id = some m
      ∧ m.tasks.length < m.capacity :=
  (sweep_targets_under_capacity [exTeamA]).2.2.1 exEventA (by decide)

/-- C4: no HIGH-priority task ever appears in the sweep's move trace, of
which the reassignment list and the assignee updates are exact
projections. -/
theorem sweep_never_moves_high (teams : List Team) :
    (∀ e ∈ sweepTrace teams, e.task.priority ≠ Priority.HIGH)
    ∧ (runRebalancingSweep teams).1 = (sweepTrace teams).map eventToRecord
    ∧ (runRebalancingSweep teams).2 = (sweepTrace teams).map eventToUpdate := by
  refine ⟨fun e he => (sweepTrace_guard teams e he).2, ?_, ?_⟩ <;> rw [sweep_eq_trace]

/-- C4 witness: the single Scenario A move is not HIGH priority. -/
theorem sweep_never_moves_high_witness : exEventA.task.priority ≠ Priority.HIGH :=
  (sweep_never_moves_high [exTeamA]).1 exEventA (by decide)

/-- C7: when no member of any team is strictly over capacity, the sweep
returns zero reassignments and writes no assignee update. -/
theorem sweep_no_overload_noop (teams : List Team)
    (h : ∀ t ∈ teams, ∀ m ∈ t.members, m.currentLoad ≤ m.capacity) :
    runRebalancingSweep teams = ([], []) := by
  have htr : sweepTrace teams = [] := by
    rw [List.eq_nil_iff_forall_not_mem]
    intro e
    unfold sweepTrace
    rw [mem_foldl_append]
    rintro (h0 | ⟨t, ht, he⟩)
    · simp at h0
    · rw [fetchTeams, List.mem_map] at ht
      obtain ⟨t₀, ht₀, rfl⟩ := ht
      have hov : overloadedOf (fetchTeam t₀) = [] := by
        rw [overloadedOf, List.filter_eq_nil_iff]
        intro m hm
        rw [fetchTeam] at hm
        simp only [List.mem_map] at hm
        obtain ⟨m₀, hm₀, rfl⟩ := hm
        have hle := h t₀ ht₀ m₀ hm₀
        have hlen : (fetchMember m₀).tasks.length = m₀.currentLoad := rfl
        simp only [decide_eq_true_eq]
        intro hlt
        rw [hlen] at hlt
        exact absurd hle (Nat.not_le.mpr hlt)
      have hT : processTeamT (fetchTeam t₀) = ((fetchTeam t₀).members, []) := by
        rw [processTeamT, hov]
        rfl
      rw [hT] at he
      simp at he
  rw [sweep_eq_trace, htr]
  rfl

/-- C7 witness: a team whose only member is exactly at capacity triggers no
reassignment. -/
theorem sweep_no_overload_noop_witness : runRebalancingSweep [exTeamB] = ([], []) :=
  sweep_no_overload_noop [exTeamB] (by decide)

/-- C5: the tasks chosen for one overloaded member are open tasks of that
member, none HIGH priority, ordered by priority rank (LOW before MEDIUM),
and exactly min(excess, eligible) many; on Scenario A the sweep moves
exactly the LOW task from the overloaded member to its idle teammate. -/
theorem tasksToReassignOf_correct (om : Member) :
    (∀ task ∈ tasksToReassignOf om, task.priority ≠ Priority.HIGH ∧ task ∈ om.tasks)
    ∧ (tasksToReassignOf om).length =
        min (om.tasks.length - om.capacity)
          ((om.tasks.filter (fun t => decide (t.priority ≠ Priority.HIGH))).length)
    ∧ List.Sorted taskLE (tasksToReassignOf om)
    ∧ runRebalancingSweep [exTeamA] =
        ([{ taskId := "t1", taskTitle := "Low task", fromMember := "M1", toMember := "M2",
            teamName := "Alpha" }], [("t1", "m2")]) := by
  refine ⟨?_, ?_, ?_, by decide⟩
  · intro task ht
    have h1 : task ∈ List.insertionSort taskLE
        (om.tasks.filter (fun t => decide (t.priority ≠ Priority.HIGH))) :=
      List.mem_of_mem_take ht
    rw [List.mem_insertionSort, List.mem_filter, decide_eq_true_eq] at h1
    exact ⟨h1.2, h1.1⟩
  · rw [tasksToReassignOf, List.length_take, List.length_insertionSort]
  · exact List.Pairwise.sublist (List.take_sublist _ _)
      (List.sorted_insertionSort taskLE _)

/-- C5 witness: the Scenario A LOW task is a chosen task of the overloaded
member, open and not HIGH priority. -/
theorem tasksToReassignOf_correct_witness :
    exTaskLow.priority ≠ Priority.HIGH ∧ exTaskLow ∈ exM1.tasks :=
  (tasksToReassignOf_correct exM1).1 exTaskLow (by decide)

/-- C6: the sweep marks a member overloaded exactly when its open-task count
strictly exceeds its capacity, so a member exactly at capacity is left
untouched, while validateAssignment for a new task to that same member
warns. -/
theorem overloaded_strict_correct :
    (∀ (t : Team) (m : Member),
        m ∈ overloadedOf t ↔ m ∈ t.members ∧ m.capacity < m.tasks.length)
    ∧ (∀ (t : Team) (m : Member), m ∈ t.members →
        (fetchMember m ∈ overloadedOf (fetchTeam t) ↔ m.capacity < m.currentLoad))
    ∧ runRebalancingSweep [exTeamB] = ([], [])
    ∧ validateTaskAssignment [exAlice] "ma" false =
        .warned (warnMessage "Alice" 3 3) 3 3 := by
  refine ⟨?_, ?_, by decide, by decide⟩
  · intro t m
    rw [overloadedOf, List.mem_filter, decide_eq_true_eq]
  · intro t m hm
    rw [overloadedOf, List.mem_filter, decide_eq_true_eq]
    have hlen : (fetchMember m).tasks.length = m.currentLoad := rfl
    have hcap : (fetchMember m).capacity = m.capacity := rfl
    constructor
    · intro hx
      rw [hlen, hcap] at hx
      exact hx.2
    · intro hx
      refine ⟨?_, by rw [hlen, hcap]; exact hx⟩
      rw [fetchTeam]
      exact List.mem_map_of_mem fetchMember hm

/-- C6 witness: the Scenario B at-capacity member is not overloaded. -/
theorem overloaded_strict_correct_witness :
    fetchMember exAlice ∈ overloadedOf (fetchTeam exTeamB) ↔
      exAlice.capacity < exAlice.currentLoad :=
  overloaded_strict_correct.2.1 exTeamB exAlice (by decide)

/-- With pairwise-distinct ids the lookup of a member's id finds exactly that
member. -/
theorem lookup_of_nodup {l : List Member} (hnd : (l.map Member.id).Nodup)
    {m : Member} (hm : m ∈ l) : lookupMember l m.id = some m := by
  induction l with
  | nil => cases hm
  | cons a rest ih =>
      rw [List.map_cons, List.nodup_cons] at hnd
      rcases List.mem_cons.mp hm with rfl | hmem
      · unfold lookupMember
        exact List.find?_cons_of_pos rest (by simp)
      · have hne : ¬a.id = m.id := by
          intro he
          exact hnd.1 (he ▸ List.mem_map_of_mem Member.id hmem)
        unfold lookupMember
        rw [List.find?_cons_of_neg rest (by simpa using hne)]
        exact ih hnd.2 hmem

/-- Along a chained move list a member's capacity is preserved and its
in-memory task list never shrinks, both at every selection state and at the
final state. -/
theorem chainedFrom_mono {j : String} :
    ∀ {evs : List MoveEvent} {st stF : List Member} {m₀ : Member},
      ChainedFrom st evs stF → lookupMember st j = some m₀ →
      (∀ e ∈ evs, ∃ m', lookupMember e.stBefore j = some m'
          ∧ m'.capacity = m₀.capacity ∧ m₀.tasks.length ≤ m'.tasks.length)
      ∧ ∃ mF, lookupMember stF j = some mF
          ∧ mF.capacity = m₀.capacity ∧ m₀.tasks.length ≤ mF.tasks.length := by
  intro evs
  induction evs with
  | nil =>
      intro st stF m₀ hch hl
      have hst : stF = st := hch
      subst hst
      exact ⟨fun e he => absurd he (List.not_mem_nil e), m₀, hl, rfl, Nat.le_refl _⟩
  | cons e es ih =>
      intro st stF m₀ hch hl
      obtain ⟨hst, hrest⟩ := hch
      have hl' : lookupMember (pushTask st e.target.id e.task) j =
          some (if m₀.id = e.target.id then
            { m₀ with tasks := m₀.tasks ++ [e.task] } else m₀) := by
        rw [pushTask_lookup, hl]
        rfl
      have hcap : (if m₀.id = e.target.id then
          { m₀ with tasks := m₀.tasks ++ [e.task] } else m₀).capacity = m₀.capacity := by
        by_cases hx : m₀.id = e.target.id <;> simp [hx]
      have hlen : m₀.tasks.length ≤ (if m₀.id = e.target.id then
          { m₀ with tasks := m₀.tasks ++ [e.task] } else m₀).tasks.length := by
        by_cases hx : m₀.id = e.target.id <;> simp [hx]
      obtain ⟨hall, mF, hlf, hcf, hlenf⟩ := ih hrest hl'
      refine ⟨?_, mF, hlf, by rw [hcf, hcap], Nat.le_trans hlen hlenf⟩
      intro e' he'
      rcases List.mem_cons.mp he' with rfl | hmem
      · refine ⟨m₀, ?_, rfl, Nat.le_refl _⟩
        rw [hst]
        exact hl
      · obtain ⟨m', hm', hc', hl2⟩ := hall e' hmem
        exact ⟨m', hm', by rw [hc', hcap], Nat.le_trans hlen hl2⟩

/-- C10: a member strictly over capacity in the team snapshot never receives
a reassigned task during that team's sweep, and its in-memory task list
never shrinks. -/
theorem overloaded_never_receives (t : Team)
    (hnd : (t.members.map Member.id).Nodup) (m : Member) (hm : m ∈ t.members)
    (hover : m.capacity < m.tasks.length) :
    (∀ e ∈ (processTeamT t).2, e.target.id ≠ m.id)
    ∧ ∃ mF, lookupMember (processTeamT t).1 m.id = some mF
        ∧ m.tasks.length ≤ mF.tasks.length := by
  have hl0 : lookupMember t.members m.id = some m := lookup_of_nodup hnd hm
  obtain ⟨hall, mF, hlf, hcf, hlenf⟩ := chainedFrom_mono (processTeamT_chain t) hl0
  refine ⟨?_, mF, hlf, hlenf⟩
  intro e he heq
  obtain ⟨⟨hsel, hcap⟩, -⟩ := processTeamT_guard t e he
  obtain ⟨m', hm', hc', hlen'⟩ := hall e he
  rw [heq] at hsel
  have he2 : e.target = m' := Option.some.inj (hsel.symm.trans hm')
  rw [he2] at hcap
  omega

/-- C10 witness: on the counterexample team the first move's target is not
the overloaded member O1. -/
theorem overloaded_never_receives_witness : exEventC.target.id ≠ exO1.id :=
  (overloaded_never_receives (fetchTeam exTeamC) (by decide) exO1 (by decide)
    (by decide)).1 exEventC (by decide)

/-- The find of the code and the filter-then-head of the spec pick the same
target. -/
theorem specPickTarget_eq (st : List Member) :
    ∀ ids : List String, findTarget st ids = specPickTarget st ids := by
  intro ids
  induction ids with
  | nil => rfl
  | cons i rest ih =>
      cases hl : lookupMember st i with
      | none =>
          simp only [findTarget, specPickTarget, List.filterMap_cons, hl]
          exact ih
      | some m =>
          by_cases hcap : m.tasks.length < m.capacity
          · simp only [findTarget, specPickTarget, List.filterMap_cons, hl, if_pos hcap]
            rfl
          · simp only [findTarget, specPickTarget, List.filterMap_cons, hl, if_neg hcap]
            exact ih

/-- The code's inner task loop equals the spec's step-5 loop. -/
theorem specMoveTasks_eq (tn fn : String) (ids : List String) :
    ∀ (ts : List Task) (st : List Member),
      reassignLoop tn fn ids ts st = specMoveTasks tn fn ids ts st := by
  intro ts
  induction ts with
  | nil => intro st; rfl
  | cons task rest ih =>
      intro st
      cases hf : findTarget st ids with
      | none =>
          have hs : specPickTarget st ids = none := by
            rw [← specPickTarget_eq st ids]
            exact hf
          simp only [reassignLoop, specMoveTasks, hf, hs]
      | some target =>
          have hs : specPickTarget st ids = some target := by
            rw [← specPickTarget_eq st ids]
            exact hf
          simp only [reassignLoop, specMoveTasks, hf, hs, ih (pushTask st target.id task)]

/-- The code's available-member ids equal the spec's step-4 list evaluated in
the same state. -/
theorem availableIdsOf_eq_spec (st : List Member) (omId : String) :
    availableIdsOf st omId = (specAvailable st omId).map Member.id := by
  unfold availableIdsOf specAvailable
  have hp : (fun m : Member =>
      decide (m.id ≠ omId) && decide (m.tasks.length < m.capacity)) =
      fun m : Member => decide (m.id ≠ omId ∧ m.tasks.length < m.capacity) := by
    funext m
    by_cases h1 : m.id ≠ omId <;> by_cases h2 : m.tasks.length < m.capacity <;>
      simp [h1, h2]
  rw [hp]

/-- The code's per-team fold equals the spec recursion over overloaded
members, with the accumulators pulled outside. -/
theorem specProcessMembers_eq (tn : String) :
    ∀ (ids : List String) (st : List Member) (recs : List Reassignment)
      (upds : List (String × String)),
      ids.foldl (fun acc omId =>
          ((processOverloaded tn acc.1 omId).1,
           acc.2.1 ++ (processOverloaded tn acc.1 omId).2.1,
           acc.2.2 ++ (processOverloaded tn acc.1 omId).2.2)) (st, recs, upds) =
        ((specProcessMembers tn ids st).1,
         recs ++ (specProcessMembers tn ids st).2.1,
         upds ++ (specProcessMembers tn ids st).2.2) := by
  intro ids
  induction ids with
  | nil =>
      intro st recs upds
      simp [specProcessMembers]
  | cons i rest ih =>
      intro st recs upds
      cases hl : lookupMember st i with
      | none =>
          have hP : processOverloaded tn st i = (st, [], []) := by
            simp [processOverloaded, hl]
          simp only [List.foldl_cons, hP, specProcessMembers, hl, List.append_nil]
          exact ih st recs upds
      | some om =>
          have hP : processOverloaded tn st i =
              specMoveTasks tn om.name ((specAvailable st i).map Member.id)
                (tasksToReassignOf om) st := by
            simp only [processOverloaded, hl, availableIdsOf_eq_spec st i]
            exact specMoveTasks_eq tn om.name ((specAvailable st i).map Member.id)
              (tasksToReassignOf om) st
          simp only [List.foldl_cons, hP, specProcessMembers, hl]
          rw [ih]
          simp [List.append_assoc]

/-- One team's processing equals the spec algorithm for that team. -/
theorem processTeam_eq_spec (t : Team) : processTeam t = specProcessTeam t := by
  unfold processTeam specProcessTeam
  have h := specProcessMembers_eq t.name ((overloadedOf t).map Member.id) t.members [] []
  simpa using h

/-- The whole-sweep fold equals the spec's per-team concatenation. -/
theorem foldS_eq_spec :
    ∀ (ts : List Team) (recs : List Reassignment) (upds : List (String × String)),
      ts.foldl (fun acc t =>
          (acc.1 ++ (processTeam t).2.1, acc.2 ++ (processTeam t).2.2)) (recs, upds) =
        (recs ++ ((ts.map specProcessTeam).foldr
            (fun q acc => (q.2.1 ++ acc.1, q.2.2 ++ acc.2)) ([], [])).1,
         upds ++ ((ts.map specProcessTeam).foldr
            (fun q acc => (q.2.1 ++ acc.1, q.2.2 ++ acc.2)) ([], [])).2) := by
  intro ts
  induction ts with
  | nil => intro recs upds; simp
  | cons t rest ih =>
      intro recs upds
      simp only [List.foldl_cons, List.map_cons, List.foldr_cons, processTeam_eq_spec t]
      rw [ih]
      simp [List.append_assoc]

/-- C9 counterexample: computing the available-member list once at the start
of processing a team, as the claim states, is observably different from what
the sweep does: on the counterexample team the third move targets B under
the sweep but A under the once-per-team reading. -/
theorem sweep_recomputes_available_counterexample :
    (runRebalancingSweep [exTeamC]).1 ≠ (specOnceSweep [exTeamC]).1 := by decide

/-- C9 (amended): the sweep recomputes the available-member list from the
current in-memory state at the start of processing each overloaded member,
and its output (records and assignee updates) equals the spec algorithm so
amended. -/
theorem sweep_eq_specSweep (teams : List Team) :
    runRebalancingSweep teams = specSweep teams := by
  unfold runRebalancingSweep specSweep
  have h := foldS_eq_spec (fetchTeams teams) [] []
  simpa using h

end TaskMgmt
